import Mathlib

/-!
Saraswati terminal layer (`terminal.c`).

A shallow embedding of the curses adaptation layer of the Saraswati EPUB
reader, and proofs about its colour-pair encoding and its character
repetition loop.

C `int` values are embedded as `Int`.  Every intermediate value of the
functions below is either an input or stays within `0 .. 65`, so no
arithmetic here can leave the range of a 32-bit `int`; statements are
proved for every `Int`, which covers every `int`.

The C operators are embedded as follows, all on two's-complement integers:
`a & b` is `Int.land a b`, `a | b` is `Int.lor a b`, `a ^ b` is `Int.xor a b`,
`a >> k` is `Int.shiftRight a k` (arithmetic shift) and `a << k` is `a <<< k`.
In `SetColor` the only right shift is `(color >> 4) & 7`, which reads bits
4..6 of `color`; an arithmetic and a logical shift agree on those bits.
-/

namespace Saraswati

/-! ## The curses library, as seen from `terminal.c` -/

/-- The macros of `<ncurses.h>` that `SetColor` and `AddACS` expand.  They are
not defined in `terminal.c`, so they are parameters of the development:
`A_BOLD` is an attribute bit, `COLOR_PAIR(n)` the attribute that selects colour
pair `n`, and `NCURSES_ACS(c)` the alternate-character-set table lookup. -/
structure Macros where
  A_BOLD : Int
  COLOR_PAIR : Int → Int
  NCURSES_ACS : Int → Int

/-- The library calls of `<ncurses.h>` and `<signal.h>` that `Init`, `SetColor`
and `AddChar` make, as transformers of a driver state `σ`, together with the
macros.  `terminal.c` discards the return value of every one of these calls, so
return values are not represented.  `keypad_stdscr_TRUE` is the call
`keypad(stdscr, TRUE)` and `signal_SIGINT_SIG_IGN` the call
`signal(SIGINT, SIG_IGN)`, whose arguments are constants. -/
structure Curses (σ : Type) extends Macros where
  initscr : σ → σ
  cbreak : σ → σ
  noecho : σ → σ
  keypad_stdscr_TRUE : σ → σ
  start_color : σ → σ
  init_pair : Int → Int → Int → σ → σ
  signal_SIGINT_SIG_IGN : σ → σ
  attrset : Int → σ → σ
  addch : Int → σ → σ

/-! ## `Init` -/

/-- The loop `for (i = 0; i < 64; i++) init_pair(i + 1, i & 7, i >> 3);`
entered with the loop variable equal to `i`. -/
def Init.loop {σ : Type} (d : Curses σ) (i : Int) (s : σ) : σ :=
  if i < 64 then
    Init.loop d (i + 1) (d.init_pair (i + 1) (Int.land i 7) (Int.shiftRight i 3) s)
  else s
termination_by (64 - i).toNat
decreasing_by omega

/-- The function `void Init(void)`. -/
def Init {σ : Type} (d : Curses σ) (s : σ) : σ :=
  let s := d.initscr s
  let s := d.cbreak s
  let s := d.noecho s
  let s := d.keypad_stdscr_TRUE s
  let s := d.start_color s
  let s := Init.loop d 0 s
  d.signal_SIGINT_SIG_IGN s

/-! ## `SetColor` -/

/-- The four `const int` locals of `SetColor`. -/
structure SetColor.Locals where
  is_bold : Int
  fg : Int
  bg : Int
  pair : Int
deriving DecidableEq, Repr

/-- The declarations at the head of `SetColor(int color)`. -/
def SetColor.locals (color : Int) : SetColor.Locals :=
  let is_bold := Int.land color 8
  let fg := Int.land color 7
  let bg := Int.land (Int.shiftRight color 4) 7
  let pair := Int.lor (bg <<< (3 : Int)) fg + 1
  { is_bold := is_bold, fg := fg, bg := bg, pair := pair }

/-- The argument `(is_bold ? A_BOLD : 0) | COLOR_PAIR(pair)` that `SetColor`
passes to `attrset`. -/
def SetColor.attrs (m : Macros) (color : Int) : Int :=
  let v := SetColor.locals color
  Int.lor (if v.is_bold ≠ 0 then m.A_BOLD else 0) (m.COLOR_PAIR v.pair)

/-- The function `void SetColor(int color)`. -/
def SetColor {σ : Type} (d : Curses σ) (color : Int) (s : σ) : σ :=
  d.attrset (SetColor.attrs d.toMacros color) s

/-! ## `AddChar` and `AddACS` -/

/-- The function `void AddChar(int ch, int count)`:
`while (count > 0) { addch(ch); count--; }`. -/
def AddChar {σ : Type} (d : Curses σ) (ch count : Int) (s : σ) : σ :=
  if count > 0 then AddChar d ch (count - 1) (d.addch ch s) else s
termination_by count.toNat
decreasing_by omega

/-- The function `void AddACS(int ch, int count)`. -/
def AddACS {σ : Type} (d : Curses σ) (ch count : Int) (s : σ) : σ :=
  AddChar d (d.NCURSES_ACS ch) count s

/-! ## Two drivers: a call recorder and a screen -/

/-- One call into the library, with its arguments. -/
inductive Call where
  | initscr
  | cbreak
  | noecho
  | keypad_stdscr_TRUE
  | start_color
  | init_pair (pair f b : Int)
  | signal_SIGINT_SIG_IGN
  | attrset (attrs : Int)
  | addch (ch : Int)
deriving DecidableEq, Repr

/-- The recording driver: its state is the list of library calls made so
far, oldest first, and every call appends itself. -/
def recorder (m : Macros) : Curses (List Call) where
  toMacros := m
  initscr := fun log => log ++ [Call.initscr]
  cbreak := fun log => log ++ [Call.cbreak]
  noecho := fun log => log ++ [Call.noecho]
  keypad_stdscr_TRUE := fun log => log ++ [Call.keypad_stdscr_TRUE]
  start_color := fun log => log ++ [Call.start_color]
  init_pair := fun pair f b log => log ++ [Call.init_pair pair f b]
  signal_SIGINT_SIG_IGN := fun log => log ++ [Call.signal_SIGINT_SIG_IGN]
  attrset := fun attrs log => log ++ [Call.attrset attrs]
  addch := fun ch log => log ++ [Call.addch ch]

/-- The registrations `(pair, f, b)` found in a log of calls, in order. -/
def registrations (log : List Call) : List (Int × Int × Int) :=
  log.filterMap fun c =>
    match c with
    | Call.init_pair pair f b => some (pair, f, b)
    | _ => none

/-- Modelled from the spec: the state of the terminal library, which is not
part of `terminal.c`.  It holds what the specification names: the cursor, the
active rendering attribute, the screen buffer (per cell, the character written
and the attribute it was written with) and the colour-pair table. -/
structure Screen where
  row : Int
  col : Int
  attr : Int
  cells : Int → Int → Option (Int × Int)
  pairs : Int → Option (Int × Int)

/-- Modelled from the spec: the library calls `attrset`, `addch` and
`init_pair`, which `terminal.c` calls but does not define.  `attrset` sets the
active rendering attribute, `addch` stores the character at the cursor with the
active attribute and advances the cursor one column (no wrapping), `init_pair`
records the colours of a pair index.  The mode-setting calls do not touch the
state modelled here. -/
def screen (m : Macros) : Curses Screen where
  toMacros := m
  initscr := fun s => s
  cbreak := fun s => s
  noecho := fun s => s
  keypad_stdscr_TRUE := fun s => s
  start_color := fun s => s
  init_pair := fun pair f b s =>
    { s with pairs := fun p => if p = pair then some (f, b) else s.pairs p }
  signal_SIGINT_SIG_IGN := fun s => s
  attrset := fun attrs s => { s with attr := attrs }
  addch := fun ch s =>
    { s with
      cells := fun r c => if r = s.row ∧ c = s.col then some (ch, s.attr) else s.cells r c
      col := s.col + 1 }

/-- A concrete choice of the macros, used to evaluate the functions on
concrete inputs: `A_BOLD` is bit 21 and `COLOR_PAIR(n)` is `n` shifted into
bits 8..15, as in the ncurses 6 header; the ACS table is terminal dependent and
is represented by a lookup that maps `c` to `4194304 + c`. -/
def sampleMacros : Macros where
  A_BOLD := 2097152
  COLOR_PAIR := fun n => Int.land (n <<< (8 : Int)) 65280
  NCURSES_ACS := fun c => 4194304 + c

/-- A blank screen with the cursor at the origin. -/
def blank : Screen where
  row := 0
  col := 0
  attr := 0
  cells := fun _ _ => none
  pairs := fun _ => none

/-! ## The specification's wording, for comparison with the code -/

/-- The registrar as the specification words it: for the natural number `i`,
register pair index `i + 1` with foreground `i & 7` and background `i >> 3`. -/
def Init.register {σ : Type} (d : Curses σ) (s : σ) (i : Nat) : σ :=
  d.init_pair ((i : Int) + 1) (Int.land (i : Int) 7) (Int.shiftRight (i : Int) 3) s

/-- The registration the specification prescribes for `i`. -/
def registration (i : Nat) : Int × Int × Int :=
  ((i : Int) + 1, Int.land (i : Int) 7, Int.shiftRight (i : Int) 3)

/-- Re-packing of decoded fields into a colour code, as in the specification's
round-trip property: `fg | (bold ? 8 : 0) | (bg << 4)`. -/
def repack (v : SetColor.Locals) : Int :=
  Int.lor (Int.lor v.fg (if v.is_bold ≠ 0 then 8 else 0)) (v.bg <<< (4 : Int))

/-- The colour code below 128 that selects a given pair and bold setting:
foreground and background are read back from `pair - 1` and packed with the
bold bit. -/
def encode (pair : Int) (bold : Bool) : Int :=
  Int.lor (Int.lor (Int.land (pair - 1) 7) (if bold then 8 else 0))
    ((Int.shiftRight (pair - 1) 3) <<< (4 : Int))

/-- The specification of `AddACS`: the translated glyph written
`max(count, 0)` times. -/
def AddACS.spec {σ : Type} (d : Curses σ) (ch count : Int) (s : σ) : σ :=
  (d.addch (d.NCURSES_ACS ch))^[(max count 0).toNat] s

/-! ## Bit-level facts about masking -/

theorem nat_and_mod (k m n : Nat) (hm : m < 2 ^ k) : n &&& m = (n % 2 ^ k) &&& m := by
  apply Nat.eq_of_testBit_eq
  intro i
  simp only [Nat.testBit_and, Nat.testBit_mod_two_pow]
  by_cases hi : i < k
  · simp [hi]
  · have : m.testBit i = false := by
      apply Nat.testBit_lt_two_pow
      exact lt_of_lt_of_le hm (Nat.pow_le_pow_right (by decide) (by omega))
    simp [this]

theorem nat_ldiff_mod (k m n : Nat) (hm : m < 2 ^ k) :
    Nat.ldiff m n = (2 ^ k - (n % 2 ^ k + 1)) &&& m := by
  apply Nat.eq_of_testBit_eq
  intro i
  have hlt : n % 2 ^ k < 2 ^ k := Nat.mod_lt _ (by positivity)
  simp only [Nat.testBit_and, Nat.testBit_ldiff, Nat.testBit_two_pow_sub_succ hlt,
    Nat.testBit_mod_two_pow]
  by_cases hi : i < k
  · simp [hi, Bool.and_comm]
  · have : m.testBit i = false := by
      apply Nat.testBit_lt_two_pow
      exact lt_of_lt_of_le hm (Nat.pow_le_pow_right (by decide) (by omega))
    simp [this]

/-- Masking with a constant below `2 ^ k` only reads the low `k` bits. -/
theorem int_land_mod (k m : Nat) (x : Int) (hm : m < 2 ^ k) :
    Int.land x (m : Int) = Int.land (x % (2 ^ k : Nat)) (m : Int) := by
  have hpos : 0 < 2 ^ k := by positivity
  cases x with
  | ofNat n =>
    have h1 : (Int.ofNat n) % ((2 ^ k : Nat) : Int) = ((n % 2 ^ k : Nat) : Int) := by
      simp
    rw [h1]
    show ((n &&& m : Nat) : Int) = (((n % 2 ^ k) &&& m : Nat) : Int)
    rw [nat_and_mod k m n hm]
  | negSucc n =>
    have hlt : n % 2 ^ k < 2 ^ k := Nat.mod_lt _ hpos
    have h1 : (Int.negSucc n) % ((2 ^ k : Nat) : Int)
        = ((2 ^ k - (n % 2 ^ k + 1) : Nat) : Int) := by
      rw [Int.negSucc_emod _ (by exact_mod_cast hpos)]
      push_cast [Nat.succ_le_of_lt hlt]
      omega
    rw [h1]
    show ((Nat.ldiff m n : Nat) : Int) = (((2 ^ k - (n % 2 ^ k + 1)) &&& m : Nat) : Int)
    rw [nat_ldiff_mod k m n hm]

theorem land_8_mod (x : Int) : Int.land x 8 = Int.land (x % 128) 8 :=
  int_land_mod 7 8 x (by decide)

theorem land_7_mod (x : Int) : Int.land x 7 = Int.land (x % 128) 7 :=
  int_land_mod 7 7 x (by decide)

theorem land_7_mod8 (x : Int) : Int.land x 7 = Int.land (x % 8) 7 :=
  int_land_mod 3 7 x (by decide)

/-- Every integer is congruent modulo 128 to a natural number below 128. -/
theorem exists_low7 (color : Int) : ∃ n : Nat, n < 128 ∧ color % 128 = (n : Int) :=
  ⟨(color % 128).toNat, by omega, by omega⟩

theorem land_127 (x : Int) : Int.land x 127 = x % 128 := by
  have h : Int.land x 127 = Int.land (x % 128) 127 := int_land_mod 7 127 x (by decide)
  obtain ⟨n, hn, e⟩ := exists_low7 x
  rw [h, e]
  show ((n &&& 127 : Nat) : Int) = (n : Int)
  have : n &&& (2 ^ 7 - 1) = n := Nat.and_pow_two_sub_one_of_lt_two_pow (by omega)
  exact congrArg Nat.cast this

theorem shr4_land_7_mod (x : Int) :
    Int.land (Int.shiftRight x 4) 7 = Int.land (Int.shiftRight (x % 128) 4) 7 := by
  have e : ∀ y : Int, Int.shiftRight y 4 = y / 16 := fun y => by
    have := Int.shiftRight_eq_div_pow y 4
    simpa using this
  rw [e, e, land_7_mod8 (x / 16), land_7_mod8 (x % 128 / 16)]
  congr 1
  omega

/-- The locals of `SetColor` depend only on the low seven bits of `color`. -/
theorem SetColor.locals_mod (color : Int) :
    SetColor.locals color = SetColor.locals (color % 128) := by
  unfold SetColor.locals
  simp only
  rw [← land_8_mod, ← land_7_mod, ← shr4_land_7_mod]

/-- A property of the locals that holds for the 128 codes holds for every `int`. -/
theorem SetColor.locals_forall (P : SetColor.Locals → Prop)
    (h : ∀ n : Nat, n < 128 → P (SetColor.locals (n : Int))) (color : Int) :
    P (SetColor.locals color) := by
  obtain ⟨n, hn, e⟩ := exists_low7 color
  rw [SetColor.locals_mod, e]
  exact h n hn

/-! ## Loops -/

/-- The `for` loop of `Init`, entered at `n` with `k` iterations left, is the
fold of the registrar over `n, n + 1, ..., n + k - 1`. -/
theorem Init.loop_eq_foldl {σ : Type} (d : Curses σ) (k : Nat) :
    ∀ (n : Nat) (s : σ), n + k = 64 →
      Init.loop d (n : Int) s = (List.range' n k).foldl (Init.register d) s := by
  induction k with
  | zero =>
    intro n s h
    rw [Init.loop]
    have : ¬ ((n : Int) < 64) := by omega
    simp [this]
  | succ k ih =>
    intro n s h
    rw [Init.loop]
    have hlt : (n : Int) < 64 := by omega
    rw [if_pos hlt]
    have hcast : (n : Int) + 1 = ((n + 1 : Nat) : Int) := by push_cast; rfl
    rw [List.range'_succ, List.foldl_cons]
    conv_lhs => rw [hcast]
    rw [ih (n + 1) _ (by omega)]
    rfl

theorem recorder_foldl_register (m : Macros) (l : List Nat) :
    ∀ log : List Call, l.foldl (Init.register (recorder m)) log
      = log ++ l.map (fun i => Call.init_pair (registration i).1 (registration i).2.1
          (registration i).2.2) := by
  induction l with
  | nil => intro log; simp
  | cons i l ih =>
    intro log
    rw [List.foldl_cons, ih]
    simp [Init.register, recorder, registration]

/-- The whole log of `Init` on the recording driver. -/
theorem Init_recorder (m : Macros) (log : List Call) :
    Init (recorder m) log
      = log ++ [Call.initscr, Call.cbreak, Call.noecho, Call.keypad_stdscr_TRUE,
          Call.start_color]
        ++ (List.range 64).map (fun i => Call.init_pair (registration i).1
            (registration i).2.1 (registration i).2.2)
        ++ [Call.signal_SIGINT_SIG_IGN] := by
  unfold Init
  simp only
  have h : ∀ s, Init.loop (recorder m) 0 s
      = (List.range' 0 64).foldl (Init.register (recorder m)) s :=
    fun s => Init.loop_eq_foldl (recorder m) 64 0 s rfl
  rw [h, recorder_foldl_register]
  simp [recorder, List.range_eq_range']

/-- The loop of `AddChar` is `count` applications of `addch(ch)`, none when
`count` is not positive. -/
theorem AddChar_eq_iterate {σ : Type} (d : Curses σ) (ch : Int) (k : Nat) :
    ∀ (count : Int) (s : σ), count.toNat = k → AddChar d ch count s = (d.addch ch)^[k] s := by
  induction k with
  | zero =>
    intro count s h
    rw [AddChar]
    have : ¬ (count > 0) := by omega
    simp [this]
  | succ k ih =>
    intro count s h
    rw [AddChar]
    have hpos : count > 0 := by omega
    rw [if_pos hpos, ih (count - 1) _ (by omega)]
    rfl

theorem recorder_iterate_addch (m : Macros) (ch : Int) (k : Nat) :
    ∀ log : List Call, ((recorder m).addch ch)^[k] log = log ++ List.replicate k (Call.addch ch) := by
  induction k with
  | zero => intro log; simp
  | succ k ih =>
    intro log
    rw [Function.iterate_succ_apply, ih]
    simp [recorder, List.replicate_succ]


/-! ## `SetColor`: decoding -/

theorem nat_xor_mod (k m n : Nat) (hm : m < 2 ^ k) : (n ^^^ m) % 2 ^ k = (n % 2 ^ k) ^^^ m := by
  apply Nat.eq_of_testBit_eq
  intro i
  simp only [Nat.testBit_xor, Nat.testBit_mod_two_pow]
  by_cases hi : i < k
  · simp [hi]
  · have : m.testBit i = false := by
      apply Nat.testBit_lt_two_pow
      exact lt_of_lt_of_le hm (Nat.pow_le_pow_right (by decide) (by omega))
    simp [hi, this]

theorem nat_xor_compl_mod (k m n : Nat) (hm : m < 2 ^ k) :
    2 ^ k - ((n ^^^ m) % 2 ^ k + 1) = (2 ^ k - (n % 2 ^ k + 1)) ^^^ m := by
  apply Nat.eq_of_testBit_eq
  intro i
  have hpos : 0 < 2 ^ k := by positivity
  have h1 : (n ^^^ m) % 2 ^ k < 2 ^ k := Nat.mod_lt _ hpos
  have h2 : n % 2 ^ k < 2 ^ k := Nat.mod_lt _ hpos
  simp only [Nat.testBit_xor, Nat.testBit_two_pow_sub_succ h1, Nat.testBit_two_pow_sub_succ h2,
    Nat.testBit_mod_two_pow]
  by_cases hi : i < k
  · simp [hi]
  · have : m.testBit i = false := by
      apply Nat.testBit_lt_two_pow
      exact lt_of_lt_of_le hm (Nat.pow_le_pow_right (by decide) (by omega))
    simp [hi, this]

/-- Flipping bits below `2 ^ k` commutes with reduction to the low `k` bits. -/
theorem int_xor_mod (k m : Nat) (x : Int) (hm : m < 2 ^ k) :
    (Int.xor x (m : Int)) % ((2 ^ k : Nat) : Int) = Int.xor (x % ((2 ^ k : Nat) : Int)) (m : Int) := by
  have hpos : 0 < 2 ^ k := by positivity
  cases x with
  | ofNat n =>
    have h1 : (Int.ofNat n) % ((2 ^ k : Nat) : Int) = ((n % 2 ^ k : Nat) : Int) := by
      simp
    rw [h1]
    show ((n ^^^ m : Nat) : Int) % ((2 ^ k : Nat) : Int) = (((n % 2 ^ k) ^^^ m : Nat) : Int)
    rw [← nat_xor_mod k m n hm]
    simp
  | negSucc n =>
    have hlt : n % 2 ^ k < 2 ^ k := Nat.mod_lt _ hpos
    have hlt2 : (n ^^^ m) % 2 ^ k < 2 ^ k := Nat.mod_lt _ hpos
    have h1 : ∀ a : Nat, a % 2 ^ k < 2 ^ k → (Int.negSucc a) % ((2 ^ k : Nat) : Int)
        = ((2 ^ k - (a % 2 ^ k + 1) : Nat) : Int) := by
      intro a ha
      rw [Int.negSucc_emod _ (by exact_mod_cast hpos)]
      push_cast [Nat.succ_le_of_lt ha]
      omega
    rw [h1 n hlt]
    show (Int.negSucc (n ^^^ m)) % ((2 ^ k : Nat) : Int)
      = (((2 ^ k - (n % 2 ^ k + 1)) ^^^ m : Nat) : Int)
    rw [h1 _ hlt2, nat_xor_compl_mod k m n hm]

theorem SetColor.locals_xor_8_mod (c : Int) :
    SetColor.locals (Int.xor c 8) = SetColor.locals (Int.xor (c % 128) 8) := by
  have h : (Int.xor c 8) % 128 = Int.xor (c % 128) 8 := int_xor_mod 7 8 c (by decide)
  rw [SetColor.locals_mod, h]

/-- The locals of `SetColor` in arithmetic terms, for every integer. -/
theorem SetColor.locals_arith (color : Int) :
    SetColor.locals color
      = { is_bold := color / 8 % 2 * 8, fg := color % 8, bg := color / 16 % 8,
          pair := color / 16 % 8 * 8 + color % 8 + 1 } := by
  have key : ∀ n : Nat, n < 128 → SetColor.locals (n : Int)
      = { is_bold := (n : Int) / 8 % 2 * 8, fg := (n : Int) % 8, bg := (n : Int) / 16 % 8,
          pair := (n : Int) / 16 % 8 * 8 + (n : Int) % 8 + 1 } := by decide
  obtain ⟨n, hn, e⟩ := exists_low7 color
  rw [SetColor.locals_mod, e, key n hn]
  have e1 : (n : Int) / 8 % 2 = color / 8 % 2 := by omega
  have e2 : (n : Int) % 8 = color % 8 := by omega
  have e3 : (n : Int) / 16 % 8 = color / 16 % 8 := by omega
  rw [e1, e2, e3]

theorem SetColor_recorder (m : Macros) (color : Int) (log : List Call) :
    SetColor (recorder m) color log = log ++ [Call.attrset (SetColor.attrs m color)] := rfl

/-- C1: for every integer `color`, `SetColor(color)` makes exactly one library
call, `attrset`, whose argument selects the colour pair
`((((color >> 4) & 7) << 3) | (color & 7)) + 1` and carries `A_BOLD` exactly when
`color & 8` is non-zero; in arithmetic terms the pair is
`8 * (color / 16 mod 8) + color mod 8 + 1`.  In particular `SetColor(0x09)`
selects pair 2 with bold and `SetColor(0x23)` selects pair 20 without bold. -/
theorem SetColor_selects_pair_and_bold (m : Macros) (color : Int) (log : List Call) :
    SetColor (recorder m) color log
        = log ++ [Call.attrset (Int.lor (if Int.land color 8 ≠ 0 then m.A_BOLD else 0)
            (m.COLOR_PAIR (Int.lor ((Int.land (Int.shiftRight color 4) 7) <<< (3 : Int))
              (Int.land color 7) + 1)))]
    ∧ (SetColor.locals color).pair
        = Int.lor ((Int.land (Int.shiftRight color 4) 7) <<< (3 : Int)) (Int.land color 7) + 1
    ∧ (SetColor.locals color).pair = color / 16 % 8 * 8 + color % 8 + 1
    ∧ ((SetColor.locals color).is_bold ≠ 0 ↔ Int.land color 8 ≠ 0)
    ∧ SetColor (recorder m) 0x09 log = log ++ [Call.attrset (Int.lor m.A_BOLD (m.COLOR_PAIR 2))]
    ∧ SetColor (recorder m) 0x23 log = log ++ [Call.attrset (Int.lor 0 (m.COLOR_PAIR 20))] := by
  refine ⟨rfl, rfl, ?_, Iff.rfl, ?_, ?_⟩
  · rw [SetColor.locals_arith]
  · rw [SetColor_recorder]
    have : SetColor.locals 0x09 = ⟨8, 1, 0, 2⟩ := by decide
    simp [SetColor.attrs, this]
  · rw [SetColor_recorder]
    have : SetColor.locals 0x23 = ⟨0, 3, 2, 20⟩ := by decide
    simp [SetColor.attrs, this]

/-- C4: `SetColor` accepts every integer and reads only bits 0..6: for every
integer `color`, negative or large, the decoded locals, the attribute passed to
`attrset` and the effect on any driver are those of `SetColor(color & 0x7F)`,
and the call always makes exactly one `attrset` call. -/
theorem SetColor_ignores_high_bits {σ : Type} (d : Curses σ) (m : Macros) (color : Int)
    (s : σ) (log : List Call) :
    SetColor.locals color = SetColor.locals (Int.land color 0x7F)
    ∧ SetColor.attrs m color = SetColor.attrs m (Int.land color 0x7F)
    ∧ SetColor d color s = SetColor d (Int.land color 0x7F) s
    ∧ SetColor (recorder m) color log = log ++ [Call.attrset (SetColor.attrs m color)] := by
  have h : SetColor.locals color = SetColor.locals (Int.land color 0x7F) := by
    rw [land_127, ← SetColor.locals_mod]
  refine ⟨h, ?_, ?_, rfl⟩
  · unfold SetColor.attrs
    rw [h]
  · unfold SetColor SetColor.attrs
    rw [h]

theorem repack_locals_low (n : Nat) (hn : n < 128) :
    repack (SetColor.locals (n : Int)) = (n : Int) := by
  revert n
  decide

theorem repack_locals (c : Int) : repack (SetColor.locals c) = c % 128 := by
  obtain ⟨n, hn, e⟩ := exists_low7 c
  rw [SetColor.locals_mod, e, repack_locals_low n hn]

/-- C5: round trip of the masking arithmetic.  For every integer `c` in
`[0, 128)`, re-packing the decoded fields as `fg | (bold ? 8 : 0) | (bg << 4)`
gives back `c` itself, so decoding the re-packed code yields the same `pair`
and the same `is_bold` (indeed the same four locals). -/
theorem SetColor_repack_roundtrip (c : Int) (h0 : 0 ≤ c) (h1 : c < 128) :
    repack (SetColor.locals c) = c
    ∧ (SetColor.locals (repack (SetColor.locals c))).pair = (SetColor.locals c).pair
    ∧ (SetColor.locals (repack (SetColor.locals c))).is_bold = (SetColor.locals c).is_bold
    ∧ SetColor.locals (repack (SetColor.locals c)) = SetColor.locals c := by
  have h : repack (SetColor.locals c) = c := by
    rw [repack_locals]
    omega
  rw [h]
  exact ⟨rfl, rfl, rfl, rfl⟩

theorem SetColor_repack_roundtrip_witness :
    repack (SetColor.locals 0x5B) = 0x5B
    ∧ (SetColor.locals (repack (SetColor.locals 0x5B))).pair = (SetColor.locals 0x5B).pair
    ∧ (SetColor.locals (repack (SetColor.locals 0x5B))).is_bold
        = (SetColor.locals 0x5B).is_bold
    ∧ SetColor.locals (repack (SetColor.locals 0x5B)) = SetColor.locals 0x5B :=
  SetColor_repack_roundtrip 0x5B (by decide) (by decide)

theorem encode_locals_low (n : Nat) (hn : n < 128) :
    encode (SetColor.locals (n : Int)).pair (decide ((SetColor.locals (n : Int)).is_bold ≠ 0))
      = (n : Int) := by
  revert n
  decide

theorem locals_encode_low (k : Nat) (hk : k < 64) (bold : Bool) :
    0 ≤ encode ((k : Int) + 1) bold ∧ encode ((k : Int) + 1) bold < 128
    ∧ (SetColor.locals (encode ((k : Int) + 1) bold)).pair = (k : Int) + 1
    ∧ ((SetColor.locals (encode ((k : Int) + 1) bold)).is_bold ≠ 0 ↔ bold = true) := by
  revert k bold
  decide

theorem locals_xor_8_low (n : Nat) (hn : n < 128) :
    (SetColor.locals (Int.xor (n : Int) 8)).pair = (SetColor.locals (n : Int)).pair
    ∧ ((SetColor.locals (Int.xor (n : Int) 8)).is_bold ≠ 0
        ↔ (SetColor.locals (n : Int)).is_bold = 0) := by
  revert n
  decide

/-- C10: the decoding of `SetColor` is a bijection between the codes `0..127`
and the pairs `1..64` combined with a bold setting: two codes in `[0, 128)`
with the same pair and the same bold setting are equal, every pair index in
`1..64` with either bold setting is selected by a code in `[0, 128)`, and for
every integer `c` the code `c xor 8` keeps the pair and inverts the bold
setting. -/
theorem SetColor_decode_bijective :
    (∀ c₁ c₂ : Int, 0 ≤ c₁ → c₁ < 128 → 0 ≤ c₂ → c₂ < 128 →
        (SetColor.locals c₁).pair = (SetColor.locals c₂).pair →
        ((SetColor.locals c₁).is_bold ≠ 0 ↔ (SetColor.locals c₂).is_bold ≠ 0) → c₁ = c₂)
    ∧ (∀ (p : Int) (bold : Bool), 1 ≤ p → p ≤ 64 →
        ∃ c : Int, 0 ≤ c ∧ c < 128 ∧ (SetColor.locals c).pair = p
          ∧ ((SetColor.locals c).is_bold ≠ 0 ↔ bold = true))
    ∧ (∀ c : Int, (SetColor.locals (Int.xor c 8)).pair = (SetColor.locals c).pair
        ∧ ((SetColor.locals (Int.xor c 8)).is_bold ≠ 0 ↔ (SetColor.locals c).is_bold = 0)) := by
  refine ⟨?_, ?_, ?_⟩
  · intro c₁ c₂ h1 h1' h2 h2' hp hb
    obtain ⟨n₁, rfl⟩ := Int.eq_ofNat_of_zero_le h1
    obtain ⟨n₂, rfl⟩ := Int.eq_ofNat_of_zero_le h2
    have e1 := encode_locals_low n₁ (by omega)
    have e2 := encode_locals_low n₂ (by omega)
    have hd : decide ((SetColor.locals (n₁ : Int)).is_bold ≠ 0)
        = decide ((SetColor.locals (n₂ : Int)).is_bold ≠ 0) :=
      decide_eq_decide.mpr hb
    rw [← e1, ← e2, hp, hd]
  · intro p bold hp1 hp2
    obtain ⟨k, hk⟩ : ∃ k : Nat, p = (k : Int) + 1 := ⟨(p - 1).toNat, by omega⟩
    subst hk
    exact ⟨encode ((k : Int) + 1) bold, locals_encode_low k (by omega) bold⟩
  · intro c
    obtain ⟨n, hn, e⟩ := exists_low7 c
    rw [SetColor.locals_xor_8_mod, SetColor.locals_mod c, e]
    exact locals_xor_8_low n hn

theorem SetColor_decode_bijective_witness :
    (0x1B : Int) = 0x1B
    ∧ (∃ c : Int, 0 ≤ c ∧ c < 128 ∧ (SetColor.locals c).pair = 20
        ∧ ((SetColor.locals c).is_bold ≠ 0 ↔ true = true)) :=
  ⟨SetColor_decode_bijective.1 0x1B 0x1B (by decide) (by decide) (by decide) (by decide)
      rfl Iff.rfl,
    SetColor_decode_bijective.2.1 20 true (by decide) (by decide)⟩

/-! ## `Init`: the palette -/

theorem registrations_Init (m : Macros) :
    registrations (Init (recorder m) []) = (List.range 64).map registration := by
  rw [Init_recorder]
  decide

theorem registration_index_mem (p : Int) :
    p ∈ ((List.range 64).map registration).map (fun r => r.1) ↔ 1 ≤ p ∧ p ≤ 64 := by
  simp only [List.map_map, List.mem_map, List.mem_range, Function.comp, registration]
  constructor
  · rintro ⟨i, hi, rfl⟩
    omega
  · rintro ⟨h1, h2⟩
    exact ⟨(p - 1).toNat, by omega, by omega⟩

theorem registration_unique_low : ∀ f : Nat, f < 8 → ∀ b : Nat, b < 8 →
    (((List.range 64).map registration).filter
        (fun r => decide (r.2.1 = (f : Int) ∧ r.2.2 = (b : Int)))).map (fun r => r.1)
      = [Int.lor ((b : Int) <<< (3 : Int)) (f : Int) + 1] := by
  decide

/-- C3: `Init` makes exactly 64 `init_pair` calls, the call for `i` in
`[0, 64)` registering pair index `i + 1` with foreground `i & 7` and background
`i >> 3`, between `start_color` and `signal`; the registered indices are exactly
`1..64`, none repeated, and every (foreground, background) combination with
both values in `0..7` is registered under exactly one index,
`((background << 3) | foreground) + 1`. -/
theorem Init_registers_64_pairs (m : Macros) (log : List Call) :
    Init (recorder m) log
        = log ++ [Call.initscr, Call.cbreak, Call.noecho, Call.keypad_stdscr_TRUE,
            Call.start_color]
          ++ (List.range 64).map (fun i => Call.init_pair ((i : Int) + 1)
              (Int.land (i : Int) 7) (Int.shiftRight (i : Int) 3))
          ++ [Call.signal_SIGINT_SIG_IGN]
    ∧ (registrations (Init (recorder m) [])).length = 64
    ∧ (registrations (Init (recorder m) [])).map (fun r => r.1)
        = (List.range 64).map (fun i => (i : Int) + 1)
    ∧ ((registrations (Init (recorder m) [])).map (fun r => r.1)).Nodup
    ∧ (∀ p : Int, p ∈ (registrations (Init (recorder m) [])).map (fun r => r.1)
        ↔ 1 ≤ p ∧ p ≤ 64)
    ∧ (∀ f b : Int, 0 ≤ f → f ≤ 7 → 0 ≤ b → b ≤ 7 →
        ((registrations (Init (recorder m) [])).filter
            (fun r => decide (r.2.1 = f ∧ r.2.2 = b))).map (fun r => r.1)
          = [Int.lor (b <<< (3 : Int)) f + 1]) := by
  refine ⟨Init_recorder m log, ?_, ?_, ?_, ?_, ?_⟩
  · rw [registrations_Init]
    simp
  · rw [registrations_Init]
    decide
  · rw [registrations_Init]
    decide
  · intro p
    rw [registrations_Init]
    exact registration_index_mem p
  · intro f b hf0 hf7 hb0 hb7
    obtain ⟨f, rfl⟩ := Int.eq_ofNat_of_zero_le hf0
    obtain ⟨b, rfl⟩ := Int.eq_ofNat_of_zero_le hb0
    rw [registrations_Init]
    exact registration_unique_low f (by omega) b (by omega)

theorem Init_registers_64_pairs_witness :
    ((registrations (Init (recorder sampleMacros) [])).filter
        (fun r => decide (r.2.1 = 3 ∧ r.2.2 = 2))).map (fun r => r.1) = [20] :=
  (Init_registers_64_pairs sampleMacros []).2.2.2.2.2 3 2 (by decide) (by decide)
    (by decide) (by decide)

/-- The colour-pair table after a run of registrations: the last registration
of an index wins, and other indices keep their entry. -/
theorem screen_foldl_register_pairs (m : Macros) (l : List Nat) :
    ∀ (s : Screen) (p : Int),
      (l.foldl (Init.register (screen m)) s).pairs p
        = match l.reverse.find? (fun i : Nat => decide (p = (i : Int) + 1)) with
          | some i => some ((registration i).2.1, (registration i).2.2)
          | none => s.pairs p := by
  induction l with
  | nil => intro s p; simp
  | cons i l ih =>
    intro s p
    rw [List.foldl_cons, ih, List.reverse_cons, List.find?_append]
    cases hfind : l.reverse.find? (fun i : Nat => decide (p = (i : Int) + 1)) with
    | some j => simp
    | none =>
      by_cases hp : p = (i : Int) + 1
      · simp [Init.register, screen, registration, hp]
      · simp [Init.register, screen, registration, hp]

theorem Init_screen (m : Macros) (s : Screen) :
    Init (screen m) s = (List.range' 0 64).foldl (Init.register (screen m)) s := by
  unfold Init
  simp only
  have h : ∀ t, Init.loop (screen m) 0 t
      = (List.range' 0 64).foldl (Init.register (screen m)) t :=
    fun t => Init.loop_eq_foldl (screen m) 64 0 t rfl
  rw [h]
  rfl

theorem find_registration_low : ∀ k : Nat, k < 64 →
    (List.range' 0 64).reverse.find? (fun i : Nat => decide ((k : Int) + 1 = (i : Int) + 1))
      = some k := by
  decide

/-- After `Init`, the colour-pair table holds the prescribed colours at every
index `k + 1` with `k < 64`. -/
theorem Init_screen_pairs (m : Macros) (s : Screen) (k : Nat) (hk : k < 64) :
    (Init (screen m) s).pairs ((k : Int) + 1)
      = some (Int.land (k : Int) 7, Int.shiftRight (k : Int) 3) := by
  rw [Init_screen, screen_foldl_register_pairs, find_registration_low k hk]
  rfl

theorem locals_pair_low : ∀ n : Nat, n < 128 →
    1 ≤ (SetColor.locals (n : Int)).pair ∧ (SetColor.locals (n : Int)).pair ≤ 64
    ∧ 0 ≤ (SetColor.locals (n : Int)).fg ∧ (SetColor.locals (n : Int)).fg ≤ 7
    ∧ 0 ≤ (SetColor.locals (n : Int)).bg ∧ (SetColor.locals (n : Int)).bg ≤ 7
    ∧ Int.land ((SetColor.locals (n : Int)).pair - 1) 7 = (SetColor.locals (n : Int)).fg
    ∧ Int.shiftRight ((SetColor.locals (n : Int)).pair - 1) 3
        = (SetColor.locals (n : Int)).bg := by
  decide

theorem locals_registered_low : ∀ n : Nat, n < 128 →
    ((SetColor.locals (n : Int)).pair, (SetColor.locals (n : Int)).fg,
        (SetColor.locals (n : Int)).bg) ∈ (List.range 64).map registration := by
  decide

set_option maxRecDepth 100000 in
theorem registered_only_low : ∀ n : Nat, n < 128 →
    ∀ r ∈ (List.range 64).map registration, r.1 = (SetColor.locals (n : Int)).pair →
      r.2.1 = (SetColor.locals (n : Int)).fg ∧ r.2.2 = (SetColor.locals (n : Int)).bg := by
  decide

set_option maxRecDepth 100000 in
theorem registrar_index_low : ∀ n : Nat, n < 128 → ∀ j : Nat, j < 64 →
    Int.land (j : Int) 7 = (SetColor.locals (n : Int)).fg →
    Int.shiftRight (j : Int) 3 = (SetColor.locals (n : Int)).bg →
    (SetColor.locals (n : Int)).pair = (j : Int) + 1 := by
  decide

theorem pair_of_registrar_index_low : ∀ j : Nat, j < 64 →
    Int.lor ((Int.shiftRight (j : Int) 3) <<< (3 : Int)) (Int.land (j : Int) 7) + 1
      = (j : Int) + 1 := by
  decide

theorem registrar_index_exists_low : ∀ f : Nat, f < 8 → ∀ b : Nat, b < 8 →
    0 ≤ Int.lor ((b : Int) <<< (3 : Int)) (f : Int)
    ∧ Int.lor ((b : Int) <<< (3 : Int)) (f : Int) < 64
    ∧ Int.land (Int.lor ((b : Int) <<< (3 : Int)) (f : Int)) 7 = (f : Int)
    ∧ Int.shiftRight (Int.lor ((b : Int) <<< (3 : Int)) (f : Int)) 3 = (b : Int) := by
  decide

/-- C2: registrar and decoder are inverse.  For every integer `color` the pair
index that `SetColor(color)` selects lies in `1..64`; `Init` registered that
index, and registered it with foreground `color & 7` and background
`(color >> 4) & 7` and with nothing else, so the colour-pair table after `Init`
holds exactly these colours at that index.  Equivalently, for every `fg` and
`bg` in `0..7` there is an `i` in `[0, 64)` with `i & 7 = fg` and `i >> 3 = bg`,
and for every such `i` the pair `((bg << 3) | fg) + 1` that `SetColor` computes
is `i + 1`, which makes `i` unique. -/
theorem SetColor_pair_registered_by_Init (m : Macros) (color : Int) (s : Screen) :
    (1 ≤ (SetColor.locals color).pair ∧ (SetColor.locals color).pair ≤ 64)
    ∧ ((SetColor.locals color).pair, Int.land color 7, Int.land (Int.shiftRight color 4) 7)
        ∈ registrations (Init (recorder m) [])
    ∧ (∀ f b : Int, ((SetColor.locals color).pair, f, b) ∈ registrations (Init (recorder m) []) →
        f = Int.land color 7 ∧ b = Int.land (Int.shiftRight color 4) 7)
    ∧ (Init (screen m) s).pairs (SetColor.locals color).pair
        = some (Int.land color 7, Int.land (Int.shiftRight color 4) 7)
    ∧ (∀ i : Int, 0 ≤ i → i < 64 → Int.land i 7 = Int.land color 7 →
        Int.shiftRight i 3 = Int.land (Int.shiftRight color 4) 7 →
        (SetColor.locals color).pair = i + 1)
    ∧ (∀ fg bg : Int, 0 ≤ fg → fg ≤ 7 → 0 ≤ bg → bg ≤ 7 →
        (∃ i : Int, 0 ≤ i ∧ i < 64 ∧ Int.land i 7 = fg ∧ Int.shiftRight i 3 = bg)
        ∧ ∀ i : Int, 0 ≤ i → i < 64 → Int.land i 7 = fg → Int.shiftRight i 3 = bg →
            Int.lor (bg <<< (3 : Int)) fg + 1 = i + 1) := by
  have hfg : Int.land color 7 = (SetColor.locals color).fg := rfl
  have hbg : Int.land (Int.shiftRight color 4) 7 = (SetColor.locals color).bg := rfl
  rw [hfg, hbg, registrations_Init]
  refine ⟨?_, ?_, ?_, ?_, ?_, ?_⟩
  · exact SetColor.locals_forall (fun v => 1 ≤ v.pair ∧ v.pair ≤ 64)
      (fun n hn => ⟨(locals_pair_low n hn).1, (locals_pair_low n hn).2.1⟩) color
  · exact SetColor.locals_forall
      (fun v => (v.pair, v.fg, v.bg) ∈ (List.range 64).map registration)
      locals_registered_low color
  · exact SetColor.locals_forall
      (fun v => ∀ f b : Int, (v.pair, f, b) ∈ (List.range 64).map registration →
        f = v.fg ∧ b = v.bg)
      (fun n hn f b hmem => registered_only_low n hn (_, f, b) hmem rfl) color
  · refine SetColor.locals_forall
      (fun v => (Init (screen m) s).pairs v.pair = some (v.fg, v.bg)) ?_ color
    intro n hn
    obtain ⟨h1, h2, -, -, -, -, h3, h4⟩ := locals_pair_low n hn
    obtain ⟨k, hk⟩ : ∃ k : Nat, (SetColor.locals (n : Int)).pair = (k : Int) + 1 :=
      ⟨((SetColor.locals (n : Int)).pair - 1).toNat, by omega⟩
    have hk64 : k < 64 := by omega
    have hk' : (SetColor.locals (n : Int)).pair - 1 = (k : Int) := by omega
    rw [hk'] at h3 h4
    rw [hk, Init_screen_pairs m s k hk64, h3, h4]
  · refine SetColor.locals_forall
      (fun v => ∀ i : Int, 0 ≤ i → i < 64 → Int.land i 7 = v.fg →
        Int.shiftRight i 3 = v.bg → v.pair = i + 1) ?_ color
    intro n hn i hi0 hi64 h1 h2
    obtain ⟨j, rfl⟩ := Int.eq_ofNat_of_zero_le hi0
    exact registrar_index_low n hn j (by omega) h1 h2
  · intro fg bg hf0 hf7 hb0 hb7
    constructor
    · obtain ⟨f, rfl⟩ := Int.eq_ofNat_of_zero_le hf0
      obtain ⟨b, rfl⟩ := Int.eq_ofNat_of_zero_le hb0
      exact ⟨_, registrar_index_exists_low f (by omega) b (by omega)⟩
    · intro i hi0 hi64 h1 h2
      obtain ⟨j, rfl⟩ := Int.eq_ofNat_of_zero_le hi0
      rw [← h1, ← h2]
      exact pair_of_registrar_index_low j (by omega)

theorem SetColor_pair_registered_by_Init_witness :
    (SetColor.locals 0x23).pair = 19 + 1
    ∧ Int.lor ((2 : Int) <<< (3 : Int)) 3 + 1 = 19 + 1 :=
  ⟨(SetColor_pair_registered_by_Init sampleMacros 0x23 blank).2.2.2.2.1 19
      (by decide) (by decide) (by decide) (by decide),
    ((SetColor_pair_registered_by_Init sampleMacros 0x23 blank).2.2.2.2.2 3 2
      (by decide) (by decide) (by decide) (by decide)).2 19
      (by decide) (by decide) (by decide) (by decide)⟩

/-! ## `AddChar` and `AddACS` -/

/-- The screen after `k` writes of `ch`: the cursor has moved `k` columns to
the right on its row, the `k` cells it passed hold `ch` with the active
attribute, and nothing else has changed. -/
theorem screen_iterate_addch (m : Macros) (ch : Int) (k : Nat) :
    ∀ s : Screen,
      (((screen m).addch ch)^[k] s).row = s.row
      ∧ (((screen m).addch ch)^[k] s).col = s.col + (k : Int)
      ∧ (((screen m).addch ch)^[k] s).attr = s.attr
      ∧ (((screen m).addch ch)^[k] s).pairs = s.pairs
      ∧ ∀ r c : Int, (((screen m).addch ch)^[k] s).cells r c
          = if r = s.row ∧ s.col ≤ c ∧ c < s.col + (k : Int) then some (ch, s.attr)
            else s.cells r c := by
  induction k with
  | zero =>
    intro s
    refine ⟨rfl, by simp, rfl, rfl, ?_⟩
    intro r c
    have : ¬ (r = s.row ∧ s.col ≤ c ∧ c < s.col + ((0 : Nat) : Int)) := by
      intro h
      omega
    rw [if_neg this]
    rfl
  | succ k ih =>
    intro s
    rw [Function.iterate_succ_apply]
    obtain ⟨h1, h2, h3, h4, h5⟩ := ih ((screen m).addch ch s)
    refine ⟨h1, ?_, h3, h4, ?_⟩
    · rw [h2]
      show s.col + 1 + (k : Int) = s.col + ((k + 1 : Nat) : Int)
      push_cast
      omega
    · intro r c
      rw [h5]
      show (if r = s.row ∧ s.col + 1 ≤ c ∧ c < s.col + 1 + (k : Int) then some (ch, s.attr)
          else if r = s.row ∧ c = s.col then some (ch, s.attr) else s.cells r c) = _
      split_ifs with ha hb hc hd <;> first | rfl | (exfalso; push_cast at *; omega)

/-- C6: `AddChar(ch, count)` is a no-op for every `count <= 0`, in particular
for 0 and -1: on every driver the state is returned unchanged, the recording
driver logs no call, and the screen (cursor and buffer) is unchanged. -/
theorem AddChar_nonpositive_noop {σ : Type} (d : Curses σ) (m : Macros) (ch count : Int)
    (h : count ≤ 0) (s : σ) (log : List Call) (scr : Screen) :
    AddChar d ch count s = s
    ∧ AddChar (recorder m) ch count log = log
    ∧ AddChar (screen m) ch count scr = scr
    ∧ AddChar d ch 0 s = s
    ∧ AddChar d ch (-1) s = s := by
  have key : ∀ {τ : Type} (e : Curses τ) (n : Int), n ≤ 0 → ∀ t : τ, AddChar e ch n t = t := by
    intro τ e n hn t
    rw [AddChar_eq_iterate e ch 0 n t (by omega)]
    rfl
  exact ⟨key d count h s, key _ count h log, key _ count h scr, key d 0 (by decide) s,
    key d (-1) (by decide) s⟩

theorem AddChar_nonpositive_noop_witness :
    AddChar (recorder sampleMacros) 120 (-2147483648) [Call.attrset 0] = [Call.attrset 0]
    ∧ AddChar (screen sampleMacros) 120 (-2147483648) blank = blank :=
  ⟨(AddChar_nonpositive_noop (recorder sampleMacros) sampleMacros 120 (-2147483648)
      (by decide) [Call.attrset 0] [] blank).1,
    (AddChar_nonpositive_noop (recorder sampleMacros) sampleMacros 120 (-2147483648)
      (by decide) [Call.attrset 0] [] blank).2.2.1⟩

/-- C7: for every `ch` and every `n > 0`, `AddChar(ch, n)` returns after exactly
`n` calls of `addch(ch)` and no other call.  On the screen, where a write stores
the character at the cursor and advances the cursor one column, the `n` cells
starting at the original cursor hold `ch`, every other cell is unchanged, and
the cursor has advanced by `n` columns on the same row. -/
theorem AddChar_writes_n_times {σ : Type} (d : Curses σ) (m : Macros) (ch n : Int)
    (hn : 0 < n) (s : σ) (log : List Call) (scr : Screen) :
    AddChar d ch n s = (d.addch ch)^[n.toNat] s
    ∧ (n.toNat : Int) = n
    ∧ AddChar (recorder m) ch n log = log ++ List.replicate n.toNat (Call.addch ch)
    ∧ (AddChar (screen m) ch n scr).row = scr.row
    ∧ (AddChar (screen m) ch n scr).col = scr.col + n
    ∧ (∀ k : Int, 0 ≤ k → k < n →
        (AddChar (screen m) ch n scr).cells scr.row (scr.col + k) = some (ch, scr.attr))
    ∧ (∀ r c : Int, ¬ (r = scr.row ∧ scr.col ≤ c ∧ c < scr.col + n) →
        (AddChar (screen m) ch n scr).cells r c = scr.cells r c)
    ∧ (AddChar (screen m) ch n scr).attr = scr.attr
    ∧ (AddChar (screen m) ch n scr).pairs = scr.pairs := by
  have hcast : (n.toNat : Int) = n := by omega
  obtain ⟨h1, h2, h3, h4, h5⟩ := screen_iterate_addch m ch n.toNat scr
  rw [hcast] at h2 h5
  rw [AddChar_eq_iterate d ch n.toNat n s rfl,
    AddChar_eq_iterate (recorder m) ch n.toNat n log rfl,
    AddChar_eq_iterate (screen m) ch n.toNat n scr rfl]
  refine ⟨rfl, hcast, recorder_iterate_addch m ch n.toNat log, h1, h2, ?_, ?_, h3, h4⟩
  · intro k hk0 hkn
    rw [h5, if_pos ⟨rfl, by omega, by omega⟩]
  · intro r c hrc
    rw [h5, if_neg hrc]

theorem AddChar_writes_n_times_witness :
    AddChar (recorder sampleMacros) 120 5 []
        = [] ++ List.replicate (5 : Int).toNat (Call.addch 120)
    ∧ (AddChar (screen sampleMacros) 120 5 blank).col = blank.col + 5
    ∧ (AddChar (screen sampleMacros) 120 5 blank).cells blank.row (blank.col + 4)
        = some (120, blank.attr) :=
  ⟨(AddChar_writes_n_times (recorder sampleMacros) sampleMacros 120 5 (by decide) []
      [] blank).2.2.1,
    (AddChar_writes_n_times (recorder sampleMacros) sampleMacros 120 5 (by decide) []
      [] blank).2.2.2.2.1,
    (AddChar_writes_n_times (recorder sampleMacros) sampleMacros 120 5 (by decide) []
      [] blank).2.2.2.2.2.1 4 (by decide) (by decide)⟩

/-- C8: `AddACS` is `AddChar` after translation: for every `ch` and `count`,
`AddACS(ch, count)` has the effect of `AddChar(NCURSES_ACS(ch), count)`, that
is, the translated glyph is written `max(count, 0)` times and nothing else is
done; it is a no-op when `count <= 0`. -/
theorem AddACS_is_AddChar_after_translation {σ : Type} (d : Curses σ) (m : Macros)
    (ch count : Int) (s : σ) (log : List Call) :
    AddACS d ch count s = AddChar d (d.NCURSES_ACS ch) count s
    ∧ AddACS d ch count s = AddACS.spec d ch count s
    ∧ AddACS (recorder m) ch count log
        = log ++ List.replicate (max count 0).toNat (Call.addch (m.NCURSES_ACS ch))
    ∧ (count ≤ 0 → AddACS d ch count s = s) := by
  have hmax : (max count 0).toNat = count.toNat := by omega
  refine ⟨rfl, ?_, ?_, ?_⟩
  · unfold AddACS AddACS.spec
    rw [hmax]
    exact AddChar_eq_iterate d _ count.toNat count s rfl
  · unfold AddACS
    rw [hmax, AddChar_eq_iterate (recorder m) _ count.toNat count log rfl]
    exact recorder_iterate_addch m _ count.toNat log
  · intro h
    unfold AddACS
    rw [AddChar_eq_iterate d _ 0 count s (by omega)]
    rfl

theorem AddACS_is_AddChar_after_translation_witness :
    AddACS (screen sampleMacros) 113 (-3) blank = blank :=
  (AddACS_is_AddChar_after_translation (screen sampleMacros) sampleMacros 113 (-3) blank
    []).2.2.2 (by decide)

/-! ## `SetColor`: the active attribute -/

/-- C9: `SetColor` replaces the active attribute.  On the screen, the attribute
in force after `SetColor(c)` is the value computed from `c` alone, whatever the
state before; `SetColor(a); SetColor(b)` leaves the same state as `SetColor(b)`
alone, `SetColor(c); SetColor(c)` the same as `SetColor(c)`, and after a
non-bold `SetColor(b)` the attribute is the plain colour pair of `b`, without
`A_BOLD`, whatever `a` was set before.  The same holds on every driver whose
`attrset` overwrites. -/
theorem SetColor_replaces_attribute {σ : Type} (d : Curses σ) (m : Macros) (a b c : Int)
    (s s' : Screen) (t : σ) :
    (SetColor (screen m) c s).attr = SetColor.attrs m c
    ∧ (SetColor (screen m) c s').attr = (SetColor (screen m) c s).attr
    ∧ SetColor (screen m) b (SetColor (screen m) a s) = SetColor (screen m) b s
    ∧ SetColor (screen m) c (SetColor (screen m) c s) = SetColor (screen m) c s
    ∧ ((SetColor.locals b).is_bold = 0 →
        (SetColor (screen m) b (SetColor (screen m) a s)).attr
          = Int.lor 0 (m.COLOR_PAIR (SetColor.locals b).pair))
    ∧ ((∀ (x y : Int) (u : σ), d.attrset y (d.attrset x u) = d.attrset y u) →
        SetColor d b (SetColor d a t) = SetColor d b t) := by
  refine ⟨rfl, rfl, rfl, rfl, ?_, ?_⟩
  · intro hb
    show SetColor.attrs m b = _
    unfold SetColor.attrs
    simp [hb]
  · intro h
    unfold SetColor
    rw [h]

theorem SetColor_replaces_attribute_witness :
    (SetColor (screen sampleMacros) 0x23 (SetColor (screen sampleMacros) 0x09 blank)).attr
        = Int.lor 0 (sampleMacros.COLOR_PAIR (SetColor.locals 0x23).pair)
    ∧ SetColor (screen sampleMacros) 0x23 (SetColor (screen sampleMacros) 0x09 blank)
        = SetColor (screen sampleMacros) 0x23 blank :=
  ⟨(SetColor_replaces_attribute (screen sampleMacros) sampleMacros 0x09 0x23 0 blank blank
      blank).2.2.2.2.1 (by decide),
    (SetColor_replaces_attribute (screen sampleMacros) sampleMacros 0x09 0x23 0 blank blank
      blank).2.2.2.2.2 (fun _ _ _ => rfl)⟩

end Saraswati
